import Mathlib

set_option autoImplicit false

/-!
Verification of the slonik core type surface (src/src/types.ts) and of the
behavioural components the specification describes around it: the SQL token
interpreter, the result shape functions, the retry policy, and the connection
pool state.  Components whose implementation is not part of the repository
snapshot (only their type declarations are) are modelled from the
specification; each such definition says so in its doc comment.
-/

/-! ## JavaScript numbers

Only finiteness of a number is relevant to the library's behaviour (non-finite
numbers are rejected at interpretation time), so a JavaScript number is
modelled as either a finite magnitude or one of the three non-finite values. -/

/-- A JavaScript number: a finite value, `NaN`, `Infinity` or `-Infinity`. -/
inductive JsNumber where
  | finite (magnitude : Int)
  | nan
  | posInf
  | negInf
deriving DecidableEq

/-- Model of `Number.isFinite`: `true` exactly on finite numbers. -/
def JsNumber.isFiniteNum : JsNumber → Bool
  | .finite _ => true
  | _ => false

/-! ## Primitive values (types.ts 324-330) -/

/-- Type `PrimitiveValueExpression` from types.ts 324-330: the union
`Buffer | boolean | number | string | readonly PrimitiveValueExpression[] | null`.
A byte buffer is a list of bytes. -/
inductive PrimitiveValueExpression where
  | boolean (b : Bool)
  | number (n : JsNumber)
  | string (s : String)
  | buffer (data : List Nat)
  | null
  | array (items : List PrimitiveValueExpression)

mutual

/-- A primitive value is finite when every number nested inside it is finite. -/
def isFinitePrim : PrimitiveValueExpression → Bool
  | .number n => n.isFiniteNum
  | .array items => isFinitePrimList items
  | _ => true

/-- Conjunction of `isFinitePrim` over a list of primitive values. -/
def isFinitePrimList : List PrimitiveValueExpression → Bool
  | [] => true
  | p :: ps => isFinitePrim p && isFinitePrimList ps

end

/-! ## Serializable JSON values (types.ts 59-62) -/

/-- Type `SerializableValue` from types.ts 59-62:
`boolean | number | string | readonly SerializableValue[] | object | null`. -/
inductive SerializableValue where
  | null
  | boolean (b : Bool)
  | number (n : JsNumber)
  | string (s : String)
  | array (items : List SerializableValue)
  | object (fields : List (String × SerializableValue))

/-- JSON string escaping for the two characters that must be escaped. -/
def escapeJsonChar (c : Char) : String :=
  if c = '"' then "\\\"" else if c = '\\' then "\\\\" else String.singleton c

/-- Render a JSON string literal. -/
def renderJsonString (s : String) : String :=
  "\"" ++ String.join (s.toList.map escapeJsonChar) ++ "\""

/-- Render a JSON number; `JSON.stringify` maps non-finite numbers to `null`. -/
def renderJsonNumber : JsNumber → String
  | .finite m => toString m
  | _ => "null"

/-- Insert a rendered key/value pair into a key-sorted list of pairs. -/
def insertFieldSorted (p : String × String) : List (String × String) → List (String × String)
  | [] => [p]
  | q :: rest => if p.1 ≤ q.1 then p :: q :: rest else q :: insertFieldSorted p rest

/-- Sort rendered key/value pairs by key (insertion sort), giving the
deterministic key order the spec requires of JSON serialisation. -/
def sortRenderedFields : List (String × String) → List (String × String)
  | [] => []
  | p :: rest => insertFieldSorted p (sortRenderedFields rest)

mutual

/-- Modelled from the spec: JSON serialisation with a stable (sorted) key
order (spec 4.B.4).  Cycles cannot arise in an inductive value, so the
cycle failure case of the source cannot fire here. -/
def serializeJson : SerializableValue → String
  | .null => "null"
  | .boolean true => "true"
  | .boolean false => "false"
  | .number n => renderJsonNumber n
  | .string s => renderJsonString s
  | .array items => "[" ++ String.intercalate "," (serializeJsonList items) ++ "]"
  | .object fields =>
    "\x7b" ++ String.intercalate ","
      ((sortRenderedFields (serializeJsonFields fields)).map
        (fun p => renderJsonString p.1 ++ ":" ++ p.2)) ++ "\x7d"

/-- Serialise each element of a JSON array. -/
def serializeJsonList : List SerializableValue → List String
  | [] => []
  | v :: vs => serializeJson v :: serializeJsonList vs

/-- Render the value of each object field, keeping the key. -/
def serializeJsonFields : List (String × SerializableValue) → List (String × String)
  | [] => []
  | (k, v) :: fs => (k, serializeJson v) :: serializeJsonFields fs

end

/-! ## The SQL token tree (types.ts 276-342, spec section 3)

`ValueExpression = PrimitiveValueExpression | SqlToken` (types.ts 342).
Token values and list members are `readonly ValueExpression[]`; the list is
embedded as the mutually inductive `ValueList` so that the interpreter is
structurally recursive. -/

/-- The member type of an `ArraySqlToken` / the column type of an
`UnnestSqlToken`: a bare type name, or a nested raw fragment whose `sql` text
is used verbatim (spec 4.B.4: "either a bare type name or a nested raw
fragment"). -/
inductive TypeSpecifier where
  | typeName (name : String)
  | sqlFragment (sql : String)

mutual

/-- Type `ValueExpression` from types.ts 342: a primitive value or an SQL token. -/
inductive ValueExpression where
  | primitive (p : PrimitiveValueExpression)
  | token (t : SqlTokenTree)

/-- The SQL token variants of types.ts 276-340 / spec section 3.
`raw` is the `SqlSqlToken` produced by the tagged-template builder, holding
the interleaved string fragments and value expressions; a `listToken`'s glue
must be a raw token with zero values (spec 4.B.4), so it is embedded as that
token's `sql` text. -/
inductive SqlTokenTree where
  | raw (fragments : List String) (values : ValueList)
  | identifier (names : List String)
  | arrayToken (values : List PrimitiveValueExpression) (memberType : TypeSpecifier)
  | binaryToken (data : List Nat)
  | jsonToken (value : SerializableValue)
  | jsonBinaryToken (value : SerializableValue)
  | listToken (members : ValueList) (glue : String)
  | unnestToken (tuples : List (List PrimitiveValueExpression)) (columnTypes : List TypeSpecifier)

/-- A list of `ValueExpression`, mutually inductive with the token tree. -/
inductive ValueList where
  | nil
  | cons (v : ValueExpression) (rest : ValueList)

end

/-- Lift a list of primitive values to a `ValueList` of primitives. -/
def primValueList : List PrimitiveValueExpression → ValueList
  | [] => .nil
  | p :: ps => .cons (.primitive p) (primValueList ps)

/-! ## Error taxonomy (spec section 7)

Modelled from the spec: the error classes of section 7 (`errors.ts` is not
part of the snapshot; types.ts 23-25 imports `SlonikError` from it). -/

/-- The `SlonikError` taxonomy of spec section 7. -/
inductive SlonikError where
  | invalidInput
  | connectionError
  | poolEnded
  | concurrency
  | statementTimeout
  | idleTransactionTimeout
  | notFound
  | dataIntegrity
  | schemaValidation
  | uniqueIntegrityConstraintViolation
  | foreignKeyIntegrityConstraintViolation
  | notNullIntegrityConstraintViolation
  | checkIntegrityConstraintViolation
  | tupleMovedToAnotherPartition
  | backendTerminated
  | inputSyntax
  | invalidConfiguration
  | unexpectedState
deriving DecidableEq

/-! ## The SQL interpreter (spec section 4.B)

Modelled from the spec: the interpreter that flattens a token tree into a
single statement with a flat re-indexed value list is not part of the
snapshot (types.ts 206-209 declares its output type `Query`).  The output
SQL text is represented as a sequence of chunks: literal text and `$k`
placeholders; `renderSql` below produces the final string.  The global
value list is threaded through; a fresh placeholder's index is the length of
the list after its value is appended. -/

/-- One piece of output SQL text: literal text, or a `$k` placeholder. -/
inductive SqlChunk where
  | lit (s : String)
  | placeholder (k : Nat)
deriving DecidableEq

/-- The ASCII digit character of `d` (for `d < 10`). -/
def digitChar (d : Nat) : Char :=
  Char.ofNat (48 + d)

/-- The numeric value of an ASCII digit character. -/
def digitVal (c : Char) : Nat :=
  c.toNat - 48

/-- Most-significant-first decimal digits of `n`, with enough fuel; the fuel
argument only bounds the recursion depth. -/
def natDigitsCore : Nat → Nat → List Char → List Char
  | 0, _, acc => acc
  | fuel + 1, n, acc =>
    if n < 10 then digitChar n :: acc
    else natDigitsCore fuel (n / 10) (digitChar (n % 10) :: acc)

/-- Most-significant-first decimal digits of `n`. -/
def natDigits (n : Nat) : List Char :=
  natDigitsCore (n + 1) n []

/-- Render one chunk: a placeholder `k` renders as `$k`. -/
def renderChunk : SqlChunk → String
  | .lit s => s
  | .placeholder k => "$" ++ String.mk (natDigits k)

/-- Render a chunk sequence into the output SQL string. -/
def renderSql (chunks : List SqlChunk) : String :=
  String.join (chunks.map renderChunk)

/-- Double a double quote character; keep any other character. -/
def doubleQuoteChar (c : Char) : String :=
  if c = '"' then "\"\"" else String.singleton c

/-- Double every embedded double quote of one identifier name and wrap it in
double quotes (spec 4.B.4). -/
def quoteIdentifierPart (s : String) : String :=
  "\"" ++ String.join (s.toList.map doubleQuoteChar) ++ "\""

/-- Render an `IdentifierSqlToken`: each name quoted, names joined by `.`
(spec 4.B.4). -/
def renderIdentifier (names : List String) : String :=
  String.intercalate "." (names.map quoteIdentifierPart)

/-- Render a `TypeSpecifier` into SQL text. -/
def renderTypeSpecifier : TypeSpecifier → String
  | .typeName name => name
  | .sqlFragment sql => sql

/-- The `j`-th column of an unnest token: the array of the `j`-th entries of
all tuples (spec 4.B.4: the tuples are transposed into one array per
column). -/
def unnestColumn (tuples : List (List PrimitiveValueExpression)) (j : Nat) :
    PrimitiveValueExpression :=
  .array (tuples.map (fun t => t.getD j .null))

/-- The values appended by an unnest token: one column array per column. -/
def unnestValues (tuples : List (List PrimitiveValueExpression)) (n : Nat) :
    List ValueExpression :=
  (List.range n).map (fun j => .primitive (unnestColumn tuples j))

/-- The placeholder/type-cast chunks inside `unnest(...)`: the `j`-th column
becomes `$ (base+j+1) :: T_j []`, columns separated by `, `. -/
def unnestColumnChunks (base : Nat) : List TypeSpecifier → Nat → List SqlChunk
  | [], _ => []
  | ct :: rest, j =>
    (if j = 0 then [] else [.lit ", "]) ++
      [.placeholder (base + j + 1), .lit ("::" ++ renderTypeSpecifier ct ++ "[]")] ++
      unnestColumnChunks base rest (j + 1)

/-- Result of one interpretation step: output chunks plus the grown global
value list, or an error. -/
abbrev InterpResult := Except SlonikError (List SqlChunk × List ValueExpression)

mutual

/-- Modelled from the spec: interpretation of one value expression
(spec 4.B steps 1-3).  A primitive value appends itself to the global value
list and renders as a fresh global placeholder; a non-finite number is
rejected with `InvalidInputError` (spec 4.B.5); a token recurses. -/
def interpretValue (v : ValueExpression) (acc : List ValueExpression) : InterpResult :=
  match v with
  | .primitive p =>
    if isFinitePrim p then
      .ok ([.placeholder (acc.length + 1)], acc ++ [.primitive p])
    else
      .error .invalidInput
  | .token t => interpretToken t acc

/-- Modelled from the spec: the per-token renderings of spec 4.B.4 and the
rejections of spec 4.B.5. -/
def interpretToken (t : SqlTokenTree) (acc : List ValueExpression) : InterpResult :=
  match t with
  | .raw fragments values => interpretRaw fragments values acc
  | .identifier names => .ok ([.lit (renderIdentifier names)], acc)
  | .arrayToken values memberType =>
    if isFinitePrimList values then
      .ok ([.placeholder (acc.length + 1),
            .lit ("::" ++ renderTypeSpecifier memberType ++ "[]")],
           acc ++ [.primitive (.array values)])
    else
      .error .invalidInput
  | .binaryToken data =>
    .ok ([.placeholder (acc.length + 1), .lit "::bytea"],
         acc ++ [.primitive (.buffer data)])
  | .jsonToken value =>
    .ok ([.placeholder (acc.length + 1), .lit "::json"],
         acc ++ [.primitive (.string (serializeJson value))])
  | .jsonBinaryToken value =>
    .ok ([.placeholder (acc.length + 1), .lit "::jsonb"],
         acc ++ [.primitive (.string (serializeJson value))])
  | .listToken members glue => interpretMembers members glue true acc
  | .unnestToken tuples columnTypes =>
    if tuples.all (fun t => t.length == columnTypes.length) then
      if tuples.all (fun t => isFinitePrimList t) then
        .ok (.lit "unnest(" :: unnestColumnChunks acc.length columnTypes 0 ++ [.lit ")"],
             acc ++ unnestValues tuples columnTypes.length)
      else
        .error .invalidInput
    else
      .error .invalidInput

/-- Modelled from the spec: interpretation of a raw token's interleaved
fragments and values (spec 4.A and 4.B steps 1-3): each fragment is appended
verbatim, each value per `interpretValue`. -/
def interpretRaw (fragments : List String) (values : ValueList)
    (acc : List ValueExpression) : InterpResult :=
  match fragments, values with
  | fs, .nil => .ok ([.lit (String.join fs)], acc)
  | [], .cons v vs =>
    match interpretValue v acc with
    | .error e => .error e
    | .ok (chunks, acc') =>
      match interpretRaw [] vs acc' with
      | .error e => .error e
      | .ok (chunksRest, acc'') => .ok (chunks ++ chunksRest, acc'')
  | f :: fs, .cons v vs =>
    match interpretValue v acc with
    | .error e => .error e
    | .ok (chunks, acc') =>
      match interpretRaw fs vs acc' with
      | .error e => .error e
      | .ok (chunksRest, acc'') => .ok (.lit f :: (chunks ++ chunksRest), acc'')

/-- Modelled from the spec: interpretation of a list token's members, the
glue's SQL text inserted verbatim between rendered members (spec 4.B.4). -/
def interpretMembers (members : ValueList) (glue : String) (first : Bool)
    (acc : List ValueExpression) : InterpResult :=
  match members with
  | .nil => .ok ([], acc)
  | .cons m ms =>
    match interpretValue m acc with
    | .error e => .error e
    | .ok (chunks, acc') =>
      match interpretMembers ms glue false acc' with
      | .error e => .error e
      | .ok (chunksRest, acc'') =>
        if first then
          .ok (chunks ++ chunksRest, acc'')
        else
          .ok (.lit glue :: (chunks ++ chunksRest), acc'')

end

/-- The interpreter's output `Query` (types.ts 206-209): the output SQL text
(as chunks; `renderSql` produces the string) and the flat value list.  The
value list is typed at the `ValueExpression` union so that value flatness
(no token remains in the output) is a provable property rather than a typing
assumption. -/
structure InterpretedQuery where
  sqlChunks : List SqlChunk
  values : List ValueExpression

/-- Modelled from the spec: top-level interpretation of a root token with an
empty global value list (spec 4.B). -/
def interpret (t : SqlTokenTree) : Except SlonikError InterpretedQuery :=
  match interpretToken t [] with
  | .error e => .error e
  | .ok (chunks, vals) => .ok ⟨chunks, vals⟩

/-- The indices of the placeholders occurring in a chunk sequence, in order. -/
def placeholderIndices : List SqlChunk → List Nat
  | [] => []
  | .lit _ :: rest => placeholderIndices rest
  | .placeholder k :: rest => k :: placeholderIndices rest

/-- A value expression that is a primitive value (not a token). -/
def isPrimitiveValue : ValueExpression → Bool
  | .primitive _ => true
  | .token _ => false

/-- A value expression that is a primitive value all of whose numbers are
finite. -/
def isFlatFiniteValue : ValueExpression → Bool
  | .primitive p => isFinitePrim p
  | .token _ => false

/-- One interpretation step starting from global value list `acc`: the list
grows only by flat finite values, and the emitted chunks contain exactly the
placeholders of the freshly appended index range. -/
def InterpStep (acc : List ValueExpression) (chunks : List SqlChunk)
    (acc' : List ValueExpression) : Prop :=
  (∃ delta, acc' = acc ++ delta ∧ delta.all isFlatFiniteValue = true) ∧
  ∀ k, k ∈ placeholderIndices chunks ↔ (acc.length < k ∧ k ≤ acc'.length)

/-! ## Result rows and shape functions (spec 4.G)

Modelled from the spec: the shape functions are not part of the snapshot
(types.ts 449-460 declares their types `QueryMaybeOneFunction` and
`QueryOneFunction`). -/

/-- Type `QueryResultRow` (types.ts 204): a record from column name to primitive
value. -/
abbrev QueryResultRow := List (String × PrimitiveValueExpression)

/-- Modelled from the spec: `one` — exactly 1 row gives the row; 0 rows is
`NotFoundError`; 2 or more rows is `DataIntegrityError` (spec 4.G). -/
def one (rows : List QueryResultRow) : Except SlonikError QueryResultRow :=
  match rows with
  | [] => .error .notFound
  | [row] => .ok row
  | _ :: _ :: _ => .error .dataIntegrity

/-- Modelled from the spec: `maybeOne` — 0 rows gives `null`, 1 row gives the
row, 2 or more rows is `DataIntegrityError` (spec 4.G). -/
def maybeOne (rows : List QueryResultRow) : Except SlonikError (Option QueryResultRow) :=
  match rows with
  | [] => .ok none
  | [row] => .ok (some row)
  | _ :: _ :: _ => .error .dataIntegrity

/-! ## Retry policy (spec 4.F)

Modelled from the spec: the retry loops are not part of the snapshot
(types.ts 400-415 declares `InternalTransactionFunction` and
`InternalNestedTransactionFunction`; types.ts 118-133 declares the retry
limits).  The driver's behaviour is an oracle mapping the index of an attempt
to its outcome; an attempt's failure carries its PostgreSQL SQLSTATE. -/

/-- Outcome of one driver `execute` call or one transaction handler attempt. -/
inductive DriverOutcome where
  | success
  | failure (sqlState : String)

/-- SQLSTATE class `40`, PostgreSQL's transaction rollback class — the sole
class retried automatically (spec glossary). -/
def isTransactionRollbackClass (sqlState : String) : Bool :=
  sqlState.take 2 == "40"

/-- Modelled from the spec: the retry loop (spec 4.F).  `attempt i` is made;
on success it stops; on a class-`40` failure with retries left it retries;
any other failure surfaces immediately.  Returns the number of attempts made
and the final outcome. -/
def runWithRetries (attempt : Nat → DriverOutcome) : Nat → Nat → Nat × Except String Unit
  | 0, i =>
    match attempt i with
    | .success => (i + 1, .ok ())
    | .failure st => (i + 1, .error st)
  | retriesLeft + 1, i =>
    match attempt i with
    | .success => (i + 1, .ok ())
    | .failure st =>
      if isTransactionRollbackClass st then
        runWithRetries attempt retriesLeft (i + 1)
      else
        (i + 1, .error st)

/-! ## Client configuration (types.ts 85-138) -/

/-- A timeout option: a millisecond count or the `DISABLE_TIMEOUT` constant
(types.ts `number | 'DISABLE_TIMEOUT'`). -/
inductive TimeoutSetting where
  | milliseconds (n : Nat)
  | disableTimeout
deriving DecidableEq

/-- Type `TypeParser` (types.ts 219-222): a `pg_type` type name and a parser from
the wire string to a value. -/
structure TypeParser where
  name : String
  parse : String → PrimitiveValueExpression

/-- The interceptor hooks of `Interceptor` (types.ts 462-502). -/
inductive InterceptorHook where
  | afterPoolConnection
  | afterQueryExecution
  | beforePoolConnection
  | beforePoolConnectionRelease
  | beforeQueryExecution
  | beforeQueryResult
  | beforeTransformQuery
  | queryExecutionError
  | transformQuery
  | transformRow
deriving DecidableEq

/-- The shape of a hook's declared return type (types.ts 462-502). -/
inductive HookReturnShape where
  | nullOnly
  | replacementQuery
  | queryResultOrNull
  | alternatePoolOrNull
  | replacementRow
deriving DecidableEq

/-- The declared return type of each hook, read off types.ts 462-502:
`MaybePromise<null>` for the observational hooks,
`Query` for `transformQuery` (line 495),
`MaybePromise<QueryResult | null>` for `beforeQueryExecution` (479-482),
`MaybePromise<DatabasePool | null | undefined>` for `beforePoolConnection`
(472-474), and `QueryResultRow` for `transformRow` (496-501). -/
def hookReturnShape : InterceptorHook → HookReturnShape
  | .afterPoolConnection => .nullOnly
  | .afterQueryExecution => .nullOnly
  | .beforePoolConnection => .alternatePoolOrNull
  | .beforePoolConnectionRelease => .nullOnly
  | .beforeQueryExecution => .queryResultOrNull
  | .beforeQueryResult => .nullOnly
  | .beforeTransformQuery => .nullOnly
  | .queryExecutionError => .nullOnly
  | .transformQuery => .replacementQuery
  | .transformRow => .replacementRow

/-- The hooks whose declared return type is `MaybePromise<null>`. -/
def observationalHooks : List InterceptorHook :=
  [.afterPoolConnection, .afterQueryExecution, .beforePoolConnectionRelease,
   .beforeQueryResult, .beforeTransformQuery, .queryExecutionError]

/-- An interceptor, represented by the set of hooks it implements; the hook
signatures themselves are captured by `hookReturnShape`. -/
def InterceptorModel := InterceptorHook → Bool

/-- Type `ClientConfiguration` (types.ts 85-138).  The optional `PgPool` driver
override and the `ssl` TLS options are driver-level values outside the model,
so only their presence is represented. -/
structure ClientConfiguration where
  PgPool : Option Unit
  captureStackTrace : Bool
  connectionRetryLimit : Nat
  connectionTimeout : TimeoutSetting
  idleInTransactionSessionTimeout : TimeoutSetting
  idleTimeout : TimeoutSetting
  interceptors : List InterceptorModel
  maximumPoolSize : Nat
  queryRetryLimit : Nat
  ssl : Option Unit
  statementTimeout : TimeoutSetting
  transactionRetryLimit : Nat
  typeParsers : List TypeParser

/-- Modelled from the spec: the default configuration — the defaults stated
in the doc comments of types.ts 85-138 and in spec section 6. -/
def defaultClientConfiguration : ClientConfiguration where
  PgPool := none
  captureStackTrace := true
  connectionRetryLimit := 3
  connectionTimeout := .milliseconds 5000
  idleInTransactionSessionTimeout := .milliseconds 60000
  idleTimeout := .milliseconds 5000
  interceptors := []
  maximumPoolSize := 10
  queryRetryLimit := 5
  ssl := none
  statementTimeout := .milliseconds 60000
  transactionRetryLimit := 5
  typeParsers := []

/-- The fields of `ClientConfiguration`, one constructor per member of the
type at types.ts 85-138. -/
inductive ClientConfigurationField where
  | PgPool
  | captureStackTrace
  | connectionRetryLimit
  | connectionTimeout
  | idleInTransactionSessionTimeout
  | idleTimeout
  | interceptors
  | maximumPoolSize
  | queryRetryLimit
  | ssl
  | statementTimeout
  | transactionRetryLimit
  | typeParsers
deriving DecidableEq

/-- The members of `ClientConfiguration` in source order (types.ts 85-138). -/
def clientConfigurationFields : List ClientConfigurationField :=
  [.PgPool, .captureStackTrace, .connectionRetryLimit, .connectionTimeout,
   .idleInTransactionSessionTimeout, .idleTimeout, .interceptors,
   .maximumPoolSize, .queryRetryLimit, .ssl, .statementTimeout,
   .transactionRetryLimit, .typeParsers]

/-- The option set as enumerated by the specification (spec section 6). -/
def specEnumeratedOptions : List ClientConfigurationField :=
  [.captureStackTrace, .connectionRetryLimit, .connectionTimeout,
   .idleInTransactionSessionTimeout, .idleTimeout, .interceptors,
   .maximumPoolSize, .queryRetryLimit, .ssl, .statementTimeout,
   .transactionRetryLimit, .typeParsers]

/-- The retry-limit configuration used by the retry loop: one standalone
query is retried up to `queryRetryLimit` times, one top-level transaction up
to `transactionRetryLimit` times (spec 4.F, types.ts 118-133). -/
def executeQueryAttempts (configuration : ClientConfiguration)
    (driver : Nat → DriverOutcome) : Nat × Except String Unit :=
  runWithRetries driver configuration.queryRetryLimit 0

/-- The transaction handler attempt loop under `transactionRetryLimit`
(spec 4.F). -/
def runTransactionAttempts (configuration : ClientConfiguration)
    (handlerAttempt : Nat → DriverOutcome) : Nat × Except String Unit :=
  runWithRetries handlerAttempt configuration.transactionRetryLimit 0

/-! ## Pool state (types.ts 184-189, spec 4.E)

Modelled from the spec: the pool manager is not part of the snapshot
(types.ts 184-198 declares `PoolState` and `DatabasePool`). -/

/-- Type `PoolState` (types.ts 184-189). -/
structure PoolState where
  activeConnectionCount : Nat
  idleConnectionCount : Nat
  waitingClientCount : Nat
  ended : Bool
deriving DecidableEq

/-- The pool before any activity. -/
def initialPoolState : PoolState :=
  ⟨0, 0, 0, false⟩

/-- The pool lifecycle events the pool manager reacts to. -/
inductive PoolEvent where
  | acquire
  | release
  | destroy
  | expireIdle
  | endPool

/-- Modelled from the spec: one pool manager transition (spec 4.E).
An acquisition takes an idle connection if one exists, opens a new one while
under `maximumPoolSize`, and otherwise queues the client; a released
connection is handed to a waiting client if any, else becomes idle; a
destroyed connection's slot is re-opened for a waiting client if any;
`idleTimeout` closes an idle connection; `end()` marks the pool ended.
Events whose guard does not hold leave the state unchanged. -/
def stepPool (maximumPoolSize : Nat) (s : PoolState) : PoolEvent → PoolState
  | .acquire =>
    if s.ended then s
    else if 0 < s.idleConnectionCount then
      { s with activeConnectionCount := s.activeConnectionCount + 1,
               idleConnectionCount := s.idleConnectionCount - 1 }
    else if s.activeConnectionCount < maximumPoolSize then
      { s with activeConnectionCount := s.activeConnectionCount + 1 }
    else
      { s with waitingClientCount := s.waitingClientCount + 1 }
  | .release =>
    if s.activeConnectionCount = 0 then s
    else if 0 < s.waitingClientCount then
      { s with waitingClientCount := s.waitingClientCount - 1 }
    else
      { s with activeConnectionCount := s.activeConnectionCount - 1,
               idleConnectionCount := s.idleConnectionCount + 1 }
  | .destroy =>
    if s.activeConnectionCount = 0 then s
    else if 0 < s.waitingClientCount then
      { s with waitingClientCount := s.waitingClientCount - 1 }
    else
      { s with activeConnectionCount := s.activeConnectionCount - 1 }
  | .expireIdle =>
    if 0 < s.idleConnectionCount then
      { s with idleConnectionCount := s.idleConnectionCount - 1 }
    else s
  | .endPool =>
    { s with ended := true }

/-- The pool state after a sequence of lifecycle events. -/
def runPool (maximumPoolSize : Nat) (events : List PoolEvent) : PoolState :=
  events.foldl (stepPool maximumPoolSize) initialPoolState

/-- Modelled from the spec: an acquisition request — refused with
`PoolEndedError` once the pool has ended (spec 4.E: `end()` rejects
subsequent acquisitions with PoolEndedError). -/
def acquireConnection (maximumPoolSize : Nat) (s : PoolState) :
    Except SlonikError PoolState :=
  if s.ended then .error .poolEnded
  else .ok (stepPool maximumPoolSize s .acquire)

/-! ## Handle method surfaces (types.ts 157-198) -/

/-- The members of `CommonQueryMethods` (types.ts 157-169), in source order. -/
def commonQueryMethods : List String :=
  ["any", "anyFirst", "exists", "many", "manyFirst", "maybeOne",
   "maybeOneFirst", "one", "oneFirst", "query", "transaction"]

/-- The members of `DatabaseTransactionConnection` (types.ts 171-173):
`CommonQueryMethods & { stream }`. -/
def databaseTransactionConnectionMethods : List String :=
  commonQueryMethods ++ ["stream"]

/-- The transaction handle surface as the claim enumerates it: the common
query methods, nested `transaction`, and `stream`. -/
def claimedTransactionHandleMethods : List String :=
  ["query", "one", "oneFirst", "maybeOne", "maybeOneFirst", "many",
   "manyFirst", "any", "anyFirst", "exists", "transaction", "stream"]

/-! ## The Zod-typed schema surface (types.ts 308-313, 348-369, 457-460) -/

/-- The member names of `SqlSqlToken` (types.ts 308-313). -/
def sqlSqlTokenFields : List String :=
  ["sql", "type", "values", "zodObject"]

/-- A schema-shaped type argument of `SqlSqlToken<T extends MixedRow>`:
`MixedRow = QueryResultRow | ZodTypeAny` (types.ts 417). -/
inductive SchemaKind where
  | zodSchema
  | plainRowRecord
deriving DecidableEq

/-- The type of the `zodObject` member for a given schema argument:
`T extends ZodTypeAny ? T : never` (types.ts 312). -/
inductive ZodObjectFieldType where
  | theAttachedSchema
  | neverType
deriving DecidableEq

/-- Evaluation of the conditional type of types.ts 312. -/
def zodObjectFieldType : SchemaKind → ZodObjectFieldType
  | .zodSchema => .theAttachedSchema
  | .plainRowRecord => .neverType

/-- Whether the `type(schema)` builder combinator accepts a schema argument:
its parameter is constrained `Y extends ZodTypeAny` (types.ts 360). -/
def typeCombinatorAccepts : SchemaKind → Bool
  | .zodSchema => true
  | .plainRowRecord => false

/-- The type argument of a typed query method,
`T extends MixedRow | PrimitiveValueExpression` (types.ts 457). -/
inductive RowParameterKind where
  | zodSchema
  | plainRowRecord
  | primitiveScalar
deriving DecidableEq

/-- The resolved result row type of a typed query method. -/
inductive ResolvedRowType where
  | zodInferred
  | plainRow
  | scalarPassthrough
deriving DecidableEq

/-- Evaluation of the conditional result type of `QueryOneFunction`
(types.ts 457-460):
`T extends MixedRow ? (T extends ZodTypeAny ? z.infer<T> : T) : T`. -/
def queryOneRowType : RowParameterKind → ResolvedRowType
  | .zodSchema => .zodInferred
  | .plainRowRecord => .plainRow
  | .primitiveScalar => .scalarPassthrough

/-! ## Placeholders of the rendered SQL string

The rendered output string is scanned for `$` immediately followed by one or
more decimal digits; each such group is one placeholder occurrence.  The
scanner is a three-state machine over the character list. -/

/-- The characters of the rendered chunk sequence. -/
def renderChars : List SqlChunk → List Char
  | [] => []
  | c :: rest => (renderChunk c).data ++ renderChars rest

/-- Accumulate one decimal digit onto the number being read. -/
def pushDigit (v : Nat) (c : Char) : Nat :=
  v * 10 + digitVal c

/-- The decimal value of a digit sequence, continuing a number read so far. -/
def foldDigitsValue (v : Nat) (l : List Char) : Nat :=
  l.foldl pushDigit v

mutual

/-- Scanner state: outside any placeholder. -/
def extractIdle : List Char → List Nat
  | [] => []
  | c :: rest => if c = '$' then extractDollar rest else extractIdle rest

/-- Scanner state: a `$` has been seen, no digit yet. -/
def extractDollar : List Char → List Nat
  | [] => []
  | c :: rest =>
    if c.isDigit then extractReading (digitVal c) rest
    else if c = '$' then extractDollar rest
    else extractIdle rest

/-- Scanner state: reading the digits of a placeholder whose value so far is
`v`. -/
def extractReading (v : Nat) : List Char → List Nat
  | [] => [v]
  | c :: rest =>
    if c.isDigit then extractReading (pushDigit v c) rest
    else if c = '$' then v :: extractDollar rest
    else v :: extractIdle rest

end

/-- The indices of the `$k` placeholder occurrences of a string, in order. -/
def extractPlaceholders (s : String) : List Nat :=
  extractIdle s.data

/-- No `$` among the characters. -/
def noDollarChars (l : List Char) : Bool :=
  l.all (fun c => !(c = '$' : Bool))

/-- No `$` in the string. -/
def noDollarStr (s : String) : Bool :=
  noDollarChars s.data

/-- The first character, if any, is not a decimal digit. -/
def headNotDigit : List Char → Bool
  | [] => true
  | c :: _ => !c.isDigit

/-- A string literal that is safe to splice into the output SQL: it holds no
`$`, and it does not start with a digit (which, directly after a rendered
placeholder, would be absorbed into the placeholder's index). -/
def litStrOk (s : String) : Bool :=
  noDollarStr s && headNotDigit s.data

/-- A type specifier whose text holds no `$`. -/
def typeSpecifierOk : TypeSpecifier → Bool
  | .typeName name => noDollarStr name
  | .sqlFragment sql => noDollarStr sql

mutual

/-- A value expression all of whose user-supplied SQL text is safe to splice:
the token condition below on every token inside. -/
def valueExpressionOk : ValueExpression → Bool
  | .primitive _ => true
  | .token t => sqlTokenTreeOk t

/-- A token tree all of whose user-supplied SQL text (raw fragments, glue,
identifier names, type names) holds no `$`, with fragments and glue also not
starting with a digit. -/
def sqlTokenTreeOk : SqlTokenTree → Bool
  | .raw fragments values => fragments.all litStrOk && valueListOk values
  | .identifier names => names.all noDollarStr
  | .arrayToken _ memberType => typeSpecifierOk memberType
  | .binaryToken _ => true
  | .jsonToken _ => true
  | .jsonBinaryToken _ => true
  | .listToken members glue => litStrOk glue && valueListOk members
  | .unnestToken _ columnTypes => columnTypes.all typeSpecifierOk

/-- `valueExpressionOk` over a `ValueList`. -/
def valueListOk : ValueList → Bool
  | .nil => true
  | .cons v rest => valueExpressionOk v && valueListOk rest

end

/-- A chunk that renders safely: placeholders always do; a literal must
satisfy `litStrOk`. -/
def goodChunk : SqlChunk → Bool
  | .lit s => litStrOk s
  | .placeholder _ => true

/-! ## Sample inputs used by the witnesses -/

/-- Scenario S1 of spec section 8: the token tree the tagged-template builder
produces for a SELECT of two primitive values and an identifier token. -/
def sampleSelectToken : SqlTokenTree :=
  .raw ["SELECT ", ", ", ", ", ""]
    (.cons (.primitive (.number (.finite 1)))
      (.cons (.primitive (.string "a"))
        (.cons (.token (.identifier ["u", "id"])) .nil)))

/-- The interpreted form of `sampleSelectToken`. -/
def sampleSelectInterpreted : InterpretedQuery where
  sqlChunks :=
    [.lit "SELECT ", .placeholder 1, .lit ", ", .placeholder 2, .lit ", ",
     .lit "\"u\".\"id\"", .lit ""]
  values :=
    [.primitive (.number (.finite 1)), .primitive (.string "a")]

/-- A raw token holding a single non-finite number. -/
def sampleNanToken : SqlTokenTree :=
  .raw ["SELECT ", ""] (.cons (.primitive (.number .nan)) .nil)

/-- A raw token with no values. -/
def sampleLiteralToken : SqlTokenTree :=
  .raw ["SELECT 1"] .nil

/-- The interpreted form of `sampleLiteralToken`. -/
def sampleLiteralInterpreted : InterpretedQuery where
  sqlChunks := [.lit "SELECT 1"]
  values := []

/-! ## Concrete interpreter scenarios (spec section 8, S1-S3) -/

/-- Scenario S1: `SELECT $1, $2, "u"."id"` with values `[1, "a"]`. -/
theorem interpret_scenario_select :
    (interpret sampleSelectToken).map (fun q => (renderSql q.sqlChunks, q.values)) =
      .ok ("SELECT $1, $2, \"u\".\"id\"",
        [.primitive (.number (.finite 1)), .primitive (.string "a")]) := by
  rfl

/-- Scenario S2: joining two raw fragments with glue `\ AND\ ` renders
`a=$1 AND b=$2` with values `[1, 2]`. -/
theorem interpret_scenario_join :
    (interpret (.raw ["", ""]
        (.cons (.token (.listToken
          (.cons (.token (.raw ["a=", ""] (.cons (.primitive (.number (.finite 1))) .nil)))
            (.cons (.token (.raw ["b=", ""] (.cons (.primitive (.number (.finite 2))) .nil)))
              .nil))
          " AND ")) .nil))).map (fun q => (renderSql q.sqlChunks, q.values)) =
      .ok ("a=$1 AND b=$2",
        [.primitive (.number (.finite 1)), .primitive (.number (.finite 2))]) := by
  rfl

/-- Scenario S3: `unnest($1::int4[], $2::text[])` with the tuples transposed
into one array per column. -/
theorem interpret_scenario_unnest :
    (interpret (.raw ["SELECT * FROM ", ""]
        (.cons (.token (.unnestToken
          [[.number (.finite 1), .string "x"], [.number (.finite 2), .string "y"]]
          [.typeName "int4", .typeName "text"])) .nil))).map
        (fun q => (renderSql q.sqlChunks, q.values)) =
      .ok ("SELECT * FROM unnest($1::int4[], $2::text[])",
        [.primitive (.array [.number (.finite 1), .number (.finite 2)]),
         .primitive (.array [.string "x", .string "y"])]) := by
  rfl

/-- Identifier quoting doubles embedded double quotes (spec section 8,
invariant 3). -/
theorem identifier_quote_doubling :
    renderIdentifier ["a\"b"] = "\"a\"\"b\"" := by
  rfl

/-! ## C1: shape functions `one` and `maybeOne` -/

/-- C1: `one` returns the row exactly when the result has exactly that one
row, raises `NotFoundError` exactly on 0 rows, and `DataIntegrityError`
exactly on 2 or more rows; `maybeOne` returns `null` on 0 rows, the row on
1 row, and raises `DataIntegrityError` on 2 or more rows. -/
theorem one_maybeOne_shape (rows : List QueryResultRow) (row : QueryResultRow) :
    (one rows = .ok row ↔ rows = [row]) ∧
    (one rows = .error .notFound ↔ rows = []) ∧
    (one rows = .error .dataIntegrity ↔ 2 ≤ rows.length) ∧
    (maybeOne rows = .ok (some row) ↔ rows = [row]) ∧
    (maybeOne rows = .ok none ↔ rows = []) ∧
    (maybeOne rows = .error .dataIntegrity ↔ 2 ≤ rows.length) := by
  rcases rows with _ | ⟨r, _ | ⟨r2, rest⟩⟩ <;>
    refine ⟨?_, ?_, ?_, ?_, ?_, ?_⟩ <;>
    simp [one, maybeOne]

/-! ## C3: retry bounds and the class-40 retry condition -/

/-- The retry loop performs at most `1 + retriesLeft` attempts past `i`. -/
theorem runWithRetries_attempt_bound (attempt : Nat → DriverOutcome) :
    ∀ retriesLeft i : Nat,
      (runWithRetries attempt retriesLeft i).1 ≤ i + 1 + retriesLeft := by
  intro retriesLeft
  induction retriesLeft with
  | zero =>
    intro i
    cases h : attempt i <;> simp [runWithRetries, h]
  | succ n ih =>
    intro i
    cases h : attempt i with
    | success => simp [runWithRetries, h]
    | failure st =>
      cases hc : isTransactionRollbackClass st with
      | true =>
        have := ih (i + 1)
        simp only [runWithRetries, h, hc, if_true]
        omega
      | false =>
        simp [runWithRetries, h, hc]

/-- Every attempt that is followed by another attempt failed with a
SQLSTATE of the transaction rollback class `40`. -/
theorem runWithRetries_retry_only_class40 (attempt : Nat → DriverOutcome) :
    ∀ retriesLeft i j : Nat, i ≤ j →
      j + 1 < (runWithRetries attempt retriesLeft i).1 →
      ∃ st, attempt j = .failure st ∧ isTransactionRollbackClass st = true := by
  intro retriesLeft
  induction retriesLeft with
  | zero =>
    intro i j hij hj
    cases h : attempt i <;> simp [runWithRetries, h] at hj <;> omega
  | succ n ih =>
    intro i j hij hj
    cases h : attempt i with
    | success => simp [runWithRetries, h] at hj; omega
    | failure st =>
      cases hc : isTransactionRollbackClass st with
      | true =>
        rcases Nat.eq_or_lt_of_le hij with heq | hlt
        · subst heq
          exact ⟨st, h, hc⟩
        · refine ih (i + 1) j hlt ?_
          simpa only [runWithRetries, h, hc, if_true] using hj
      | false =>
        simp [runWithRetries, h, hc] at hj
        omega

/-- C3: the number of driver `execute` calls for one standalone query is at
most `1 + queryRetryLimit`; the number of handler attempts for one top-level
transaction is at most `1 + transactionRetryLimit`; and whenever a further
attempt follows attempt `j`, attempt `j` failed with a SQLSTATE of class `40`
— every other error surfaces with no retry. -/
theorem retry_bounds_and_class40_only (configuration : ClientConfiguration)
    (driver handlerAttempt : Nat → DriverOutcome) (j : Nat) :
    (executeQueryAttempts configuration driver).1 ≤ 1 + configuration.queryRetryLimit ∧
    (runTransactionAttempts configuration handlerAttempt).1 ≤
      1 + configuration.transactionRetryLimit ∧
    ((executeQueryAttempts configuration driver).1 ≤ j + 1 ∨
      ∃ st, driver j = DriverOutcome.failure st ∧ isTransactionRollbackClass st = true) ∧
    ((runTransactionAttempts configuration handlerAttempt).1 ≤ j + 1 ∨
      ∃ st, handlerAttempt j = DriverOutcome.failure st ∧
        isTransactionRollbackClass st = true) := by
  refine ⟨?_, ?_, ?_, ?_⟩
  · have := runWithRetries_attempt_bound driver configuration.queryRetryLimit 0
    simp only [executeQueryAttempts]
    omega
  · have := runWithRetries_attempt_bound handlerAttempt configuration.transactionRetryLimit 0
    simp only [runTransactionAttempts]
    omega
  · by_cases hj : (executeQueryAttempts configuration driver).1 ≤ j + 1
    · exact .inl hj
    · exact .inr (runWithRetries_retry_only_class40 driver configuration.queryRetryLimit 0 j
        (Nat.zero_le j) (by simp only [executeQueryAttempts] at hj ⊢; omega))
  · by_cases hj : (runTransactionAttempts configuration handlerAttempt).1 ≤ j + 1
    · exact .inl hj
    · exact .inr (runWithRetries_retry_only_class40 handlerAttempt
        configuration.transactionRetryLimit 0 j (Nat.zero_le j)
        (by simp only [runTransactionAttempts] at hj ⊢; omega))

/-! ## C4: interceptor hook return shapes -/

/-- C4 counterexample: `transformRow` is not among the three hooks the claim
excepts, yet its declared return type is `QueryResultRow`, not
`MaybePromise<null>` — so it is not observational. -/
theorem interceptor_observational_claim_counterexample :
    hookReturnShape InterceptorHook.transformRow = HookReturnShape.replacementRow ∧
    hookReturnShape InterceptorHook.transformRow ≠ HookReturnShape.nullOnly ∧
    InterceptorHook.transformRow ∉
      ([.transformQuery, .beforeQueryExecution, .beforePoolConnection] :
        List InterceptorHook) := by
  decide

/-- C4 (amended): a hook's declared return type is `MaybePromise<null>`
exactly when the hook is one of the six observational hooks — that is, every
hook other than `transformQuery` (returns a new `Query`),
`beforeQueryExecution` (returns `QueryResult | null`), `beforePoolConnection`
(returns `DatabasePool | null | undefined`) and `transformRow` (returns a
replacement `QueryResultRow`) is observational. -/
theorem interceptor_hook_return_shapes :
    (∀ h : InterceptorHook, hookReturnShape h = .nullOnly ↔ h ∈ observationalHooks) ∧
    hookReturnShape .transformQuery = .replacementQuery ∧
    hookReturnShape .beforeQueryExecution = .queryResultOrNull ∧
    hookReturnShape .beforePoolConnection = .alternatePoolOrNull ∧
    hookReturnShape .transformRow = .replacementRow := by
  refine ⟨fun h => ?_, rfl, rfl, rfl, rfl⟩
  cases h <;> decide

/-! ## C6: pool state invariants -/

/-- One pool transition preserves the size bound and the waiting condition. -/
theorem stepPool_preserves (m : Nat) (s : PoolState) (ev : PoolEvent)
    (h1 : s.activeConnectionCount + s.idleConnectionCount ≤ m)
    (h2 : s.waitingClientCount = 0 ∨ s.activeConnectionCount = m) :
    (stepPool m s ev).activeConnectionCount + (stepPool m s ev).idleConnectionCount ≤ m ∧
    ((stepPool m s ev).waitingClientCount = 0 ∨
      (stepPool m s ev).activeConnectionCount = m) := by
  rcases h2 with h2 | h2 <;>
    cases ev <;>
    simp only [stepPool] <;>
    (try split_ifs) <;>
    (try simp) <;>
    omega

/-- The invariant holds after any event sequence, from any state satisfying
it. -/
theorem foldl_pool_invariant (m : Nat) (events : List PoolEvent) :
    ∀ s : PoolState,
      s.activeConnectionCount + s.idleConnectionCount ≤ m →
      (s.waitingClientCount = 0 ∨ s.activeConnectionCount = m) →
      (events.foldl (stepPool m) s).activeConnectionCount +
          (events.foldl (stepPool m) s).idleConnectionCount ≤ m ∧
        ((events.foldl (stepPool m) s).waitingClientCount = 0 ∨
          (events.foldl (stepPool m) s).activeConnectionCount = m) := by
  induction events with
  | nil => intro s h1 h2; exact ⟨h1, h2⟩
  | cons ev rest ih =>
    intro s h1 h2
    have hstep := stepPool_preserves m s ev h1 h2
    exact ih (stepPool m s ev) hstep.1 hstep.2

/-- C6: at every point of the pool's lifetime, `active + idle` never exceeds
`maximumPoolSize`; a non-empty wait queue implies the pool is saturated
(`active = maximumPoolSize`); and once the pool has ended, an acquisition
request is refused with `PoolEndedError`. -/
theorem pool_state_invariants (maximumPoolSize : Nat) (events : List PoolEvent) :
    (runPool maximumPoolSize events).activeConnectionCount +
        (runPool maximumPoolSize events).idleConnectionCount ≤ maximumPoolSize ∧
    ((runPool maximumPoolSize events).waitingClientCount = 0 ∨
      (runPool maximumPoolSize events).activeConnectionCount = maximumPoolSize) ∧
    ((runPool maximumPoolSize events).ended = false ∨
      acquireConnection maximumPoolSize (runPool maximumPoolSize events) =
        .error SlonikError.poolEnded) := by
  have h := foldl_pool_invariant maximumPoolSize events initialPoolState
    (by simp [initialPoolState]) (by simp [initialPoolState])
  refine ⟨h.1, h.2, ?_⟩
  cases hend : (runPool maximumPoolSize events).ended with
  | false => exact .inl rfl
  | true => exact .inr (by simp [acquireConnection, hend])

/-! ## C7: the configuration option set and its defaults -/

/-- C7 counterexample: `ClientConfiguration` has a member the claim's
enumeration omits — the optional `PgPool` driver override (types.ts 86-89) —
so the configuration does not consist of exactly the enumerated option set. -/
theorem client_configuration_exact_enumeration_counterexample :
    ClientConfigurationField.PgPool ∈ clientConfigurationFields ∧
    ClientConfigurationField.PgPool ∉ specEnumeratedOptions := by
  decide

/-- C7 (amended): the client configuration consists of the twelve enumerated
options plus the optional `PgPool` driver-override constructor, with the
enumerated defaults, and each timeout option also admits the
`DISABLE_TIMEOUT` value. -/
theorem client_configuration_fields_and_defaults :
    (∀ f : ClientConfigurationField, f ∈ clientConfigurationFields) ∧
    (∀ f : ClientConfigurationField,
      f ∈ specEnumeratedOptions ∨ f = ClientConfigurationField.PgPool) ∧
    defaultClientConfiguration.captureStackTrace = true ∧
    defaultClientConfiguration.connectionRetryLimit = 3 ∧
    defaultClientConfiguration.connectionTimeout = TimeoutSetting.milliseconds 5000 ∧
    defaultClientConfiguration.idleInTransactionSessionTimeout =
      TimeoutSetting.milliseconds 60000 ∧
    defaultClientConfiguration.idleTimeout = TimeoutSetting.milliseconds 5000 ∧
    defaultClientConfiguration.interceptors = [] ∧
    defaultClientConfiguration.maximumPoolSize = 10 ∧
    defaultClientConfiguration.queryRetryLimit = 5 ∧
    defaultClientConfiguration.statementTimeout = TimeoutSetting.milliseconds 60000 ∧
    defaultClientConfiguration.transactionRetryLimit = 5 ∧
    defaultClientConfiguration.typeParsers = [] ∧
    (∃ c : ClientConfiguration,
      c.connectionTimeout = TimeoutSetting.disableTimeout ∧
      c.idleInTransactionSessionTimeout = TimeoutSetting.disableTimeout ∧
      c.idleTimeout = TimeoutSetting.disableTimeout ∧
      c.statementTimeout = TimeoutSetting.disableTimeout) := by
  refine ⟨fun f => by cases f <;> decide, fun f => by cases f <;> decide,
    rfl, rfl, rfl, rfl, rfl, rfl, rfl, rfl, rfl, rfl, rfl, ?_⟩
  exact ⟨{ defaultClientConfiguration with
            connectionTimeout := .disableTimeout,
            idleInTransactionSessionTimeout := .disableTimeout,
            idleTimeout := .disableTimeout,
            statementTimeout := .disableTimeout },
    rfl, rfl, rfl, rfl⟩

/-! ## C8: the transaction handle's method surface -/

/-- C8: the transaction handle exposes exactly the ten common query methods
plus nested `transaction` plus `stream`, and exposes neither
`copyFromBinary` nor `end`. -/
theorem transaction_handle_method_surface :
    databaseTransactionConnectionMethods.Perm claimedTransactionHandleMethods ∧
    "copyFromBinary" ∉ databaseTransactionConnectionMethods ∧
    "end" ∉ databaseTransactionConnectionMethods := by
  decide

/-! ## C10: the Zod-typed schema surface -/

/-- C10: every `SqlSqlToken` carries a `zodObject` member; that member holds
the attached schema exactly for a Zod schema argument (and is `never`
otherwise); the `type(schema)` combinator accepts exactly Zod schemas; and a
typed query method resolves a Zod schema argument's row type to the schema's
inferred type. -/
theorem zod_schema_typed_surface :
    "zodObject" ∈ sqlSqlTokenFields ∧
    (∀ k : SchemaKind, typeCombinatorAccepts k = true ↔ k = SchemaKind.zodSchema) ∧
    (∀ k : SchemaKind,
      zodObjectFieldType k = ZodObjectFieldType.theAttachedSchema ↔
        k = SchemaKind.zodSchema) ∧
    queryOneRowType RowParameterKind.zodSchema = ResolvedRowType.zodInferred := by
  refine ⟨by decide, fun k => by cases k <;> decide, fun k => by cases k <;> decide, rfl⟩

/-! ## C2/C5: the interpretation-step invariant -/

/-- Placeholder indices distribute over chunk concatenation. -/
theorem placeholderIndices_append (a b : List SqlChunk) :
    placeholderIndices (a ++ b) = placeholderIndices a ++ placeholderIndices b := by
  induction a with
  | nil => rfl
  | cons c rest ih => cases c <;> simp [placeholderIndices, ih]

/-- A step that emits only literal chunks and appends nothing. -/
theorem InterpStep.litOnly {acc : List ValueExpression} {chunks : List SqlChunk}
    (h : placeholderIndices chunks = []) : InterpStep acc chunks acc := by
  refine ⟨⟨[], (List.append_nil acc).symm, rfl⟩, ?_⟩
  intro k
  rw [h]
  simp

/-- Steps compose: chunks concatenate and the value list grows through the
intermediate state. -/
theorem InterpStep.seq {acc a1 a2 : List ValueExpression} {c1 c2 : List SqlChunk}
    (h1 : InterpStep acc c1 a1) (h2 : InterpStep a1 c2 a2) :
    InterpStep acc (c1 ++ c2) a2 := by
  obtain ⟨⟨d1, hd1, hf1⟩, hp1⟩ := h1
  obtain ⟨⟨d2, hd2, hf2⟩, hp2⟩ := h2
  have l1 : acc.length ≤ a1.length := by rw [hd1]; simp
  have l2 : a1.length ≤ a2.length := by rw [hd2]; simp
  refine ⟨⟨d1 ++ d2, by rw [hd2, hd1, List.append_assoc], by simp [hf1, hf2]⟩, ?_⟩
  intro k
  rw [placeholderIndices_append]
  simp only [List.mem_append, hp1 k, hp2 k]
  omega

/-- A literal chunk in front of a step changes nothing. -/
theorem InterpStep.consLit {acc acc' : List ValueExpression} {c : List SqlChunk}
    (s : String) (h : InterpStep acc c acc') : InterpStep acc (.lit s :: c) acc' := by
  obtain ⟨hd, hp⟩ := h
  exact ⟨hd, fun k => by simpa [placeholderIndices] using hp k⟩

/-- A step that appends `delta` and emits exactly the placeholders of the
fresh index range. -/
theorem InterpStep.pushMany {acc : List ValueExpression} {chunks : List SqlChunk}
    (delta : List ValueExpression)
    (hidx : placeholderIndices chunks = List.range' (acc.length + 1) delta.length)
    (hfin : delta.all isFlatFiniteValue = true) :
    InterpStep acc chunks (acc ++ delta) := by
  refine ⟨⟨delta, rfl, hfin⟩, ?_⟩
  intro k
  rw [hidx]
  simp only [List.mem_range'_1, List.length_append]
  omega

/-- A step that appends one flat finite value: a fresh placeholder followed
by literal-only chunks. -/
theorem InterpStep.pushOne {acc : List ValueExpression} (v : ValueExpression)
    (extra : List SqlChunk) (hextra : placeholderIndices extra = [])
    (hfin : isFlatFiniteValue v = true) :
    InterpStep acc (.placeholder (acc.length + 1) :: extra) (acc ++ [v]) := by
  refine InterpStep.pushMany [v] ?_ (by simp [hfin])
  simp [placeholderIndices, hextra]

/-- Unfolding: `isFinitePrimList` is `List.all isFinitePrim`. -/
theorem isFinitePrimList_eq_all (l : List PrimitiveValueExpression) :
    isFinitePrimList l = l.all isFinitePrim := by
  induction l with
  | nil => rfl
  | cons p ps ih => simp [isFinitePrimList, ih]

/-- Indexing into a finite primitive list with a `null` fallback stays
finite. -/
theorem isFinitePrim_getD (t : List PrimitiveValueExpression) :
    ∀ j, isFinitePrimList t = true → isFinitePrim (t.getD j .null) = true := by
  induction t with
  | nil => intro j _; rfl
  | cons p ps ih =>
    intro j h
    rw [isFinitePrimList, Bool.and_eq_true] at h
    cases j with
    | zero => simpa [List.getD] using h.1
    | succ j => simpa [List.getD] using ih j h.2

/-- An unnest token appends one value per column. -/
theorem length_unnestValues (tuples : List (List PrimitiveValueExpression)) (n : Nat) :
    (unnestValues tuples n).length = n := by
  simp [unnestValues]

/-- Transposing finite tuples into a column stays finite. -/
theorem isFinitePrimList_map_getD (tuples : List (List PrimitiveValueExpression)) (j : Nat)
    (h : tuples.all (fun t => isFinitePrimList t) = true) :
    isFinitePrimList (tuples.map fun t => t.getD j .null) = true := by
  induction tuples with
  | nil => rfl
  | cons t ts ih =>
    rw [List.all_cons, Bool.and_eq_true] at h
    simp only [List.map_cons, isFinitePrimList, Bool.and_eq_true]
    exact ⟨isFinitePrim_getD t j h.1, ih h.2⟩

/-- The column arrays of an unnest token over finite tuples are flat finite
values. -/
theorem unnestValues_flatFinite (tuples : List (List PrimitiveValueExpression)) (n : Nat)
    (h : tuples.all (fun t => isFinitePrimList t) = true) :
    (unnestValues tuples n).all isFlatFiniteValue = true := by
  rw [List.all_eq_true]
  intro x hx
  rw [unnestValues, List.mem_map] at hx
  obtain ⟨j, _, rfl⟩ := hx
  show isFinitePrim (unnestColumn tuples j) = true
  rw [unnestColumn]
  show isFinitePrimList (tuples.map fun t => t.getD j .null) = true
  exact isFinitePrimList_map_getD tuples j h

/-- The chunks inside `unnest(...)` hold exactly the placeholders
`base+j+1 .. base+j+columnTypes.length`. -/
theorem placeholderIndices_unnestColumnChunks (base : Nat)
    (cts : List TypeSpecifier) :
    ∀ j, placeholderIndices (unnestColumnChunks base cts j) =
      List.range' (base + j + 1) cts.length := by
  induction cts with
  | nil => intro j; rfl
  | cons ct rest ih =>
    intro j
    rw [unnestColumnChunks, placeholderIndices_append, placeholderIndices_append,
      ih (j + 1)]
    have h1 : placeholderIndices (if j = 0 then [] else [SqlChunk.lit ", "]) = [] := by
      by_cases h0 : j = 0 <;> simp [h0, placeholderIndices]
    have h2 : placeholderIndices
        [SqlChunk.placeholder (base + j + 1),
         SqlChunk.lit ("::" ++ renderTypeSpecifier ct ++ "[]")] = [base + j + 1] := rfl
    have h3 : base + (j + 1) + 1 = base + j + 1 + 1 := by omega
    rw [h1, h2, h3, List.length_cons, List.range'_succ]
    simp

mutual

/-- Interpreting one value expression is an interpretation step. -/
theorem interpretValue_step (v : ValueExpression) (acc : List ValueExpression)
    (chunks : List SqlChunk) (acc' : List ValueExpression)
    (h : interpretValue v acc = .ok (chunks, acc')) :
    InterpStep acc chunks acc' := by
  cases v with
  | primitive p =>
    rw [interpretValue] at h
    split at h
    · rename_i hp
      simp at h
      obtain ⟨h1, h2⟩ := h
      subst h1
      subst h2
      exact InterpStep.pushOne (.primitive p) [] rfl hp
    · simp at h
  | token t => exact interpretToken_step t acc chunks acc' h

/-- Interpreting one token is an interpretation step. -/
theorem interpretToken_step (t : SqlTokenTree) (acc : List ValueExpression)
    (chunks : List SqlChunk) (acc' : List ValueExpression)
    (h : interpretToken t acc = .ok (chunks, acc')) :
    InterpStep acc chunks acc' := by
  cases t with
  | raw fragments values => exact interpretRaw_step fragments values acc chunks acc' h
  | identifier names =>
    rw [interpretToken] at h
    simp at h
    obtain ⟨h1, h2⟩ := h
    subst h1
    subst h2
    exact InterpStep.litOnly rfl
  | arrayToken values memberType =>
    rw [interpretToken] at h
    split at h
    · rename_i hfin
      simp at h
      obtain ⟨h1, h2⟩ := h
      subst h1
      subst h2
      exact InterpStep.pushOne (.primitive (.array values))
        [.lit ("::" ++ renderTypeSpecifier memberType ++ "[]")] rfl hfin
    · simp at h
  | binaryToken data =>
    rw [interpretToken] at h
    simp at h
    obtain ⟨h1, h2⟩ := h
    subst h1
    subst h2
    exact InterpStep.pushOne (.primitive (.buffer data)) [.lit "::bytea"] rfl rfl
  | jsonToken value =>
    rw [interpretToken] at h
    simp at h
    obtain ⟨h1, h2⟩ := h
    subst h1
    subst h2
    exact InterpStep.pushOne (.primitive (.string (serializeJson value)))
      [.lit "::json"] rfl rfl
  | jsonBinaryToken value =>
    rw [interpretToken] at h
    simp at h
    obtain ⟨h1, h2⟩ := h
    subst h1
    subst h2
    exact InterpStep.pushOne (.primitive (.string (serializeJson value)))
      [.lit "::jsonb"] rfl rfl
  | listToken members glue => exact interpretMembers_step members glue true acc chunks acc' h
  | unnestToken tuples columnTypes =>
    rw [interpretToken] at h
    split at h
    · rename_i hwidth
      split at h
      · rename_i hfin
        simp at h
        obtain ⟨h1, h2⟩ := h
        subst h1
        subst h2
        refine InterpStep.consLit _ ?_
        refine InterpStep.pushMany (unnestValues tuples columnTypes.length) ?_
          (unnestValues_flatFinite tuples columnTypes.length hfin)
        rw [placeholderIndices_append,
          placeholderIndices_unnestColumnChunks acc.length columnTypes 0,
          length_unnestValues]
        simp [placeholderIndices]
      · simp at h
    · simp at h

/-- Interpreting a raw token's fragments and values is an interpretation
step. -/
theorem interpretRaw_step (fragments : List String) (values : ValueList)
    (acc : List ValueExpression) (chunks : List SqlChunk) (acc' : List ValueExpression)
    (h : interpretRaw fragments values acc = .ok (chunks, acc')) :
    InterpStep acc chunks acc' := by
  match fragments, values with
  | fs, .nil =>
    rw [interpretRaw] at h
    simp at h
    obtain ⟨h1, h2⟩ := h
    subst h1
    subst h2
    exact InterpStep.litOnly rfl
  | [], .cons v vs =>
    rw [interpretRaw] at h
    split at h
    · simp at h
    · rename_i r c1 a1 hv
      split at h
      · simp at h
      · rename_i r2 c2 a2 hr
        simp at h
        obtain ⟨h1, h2⟩ := h
        subst h1
        subst h2
        exact (interpretValue_step v acc c1 a1 hv).seq
          (interpretRaw_step [] vs a1 c2 a2 hr)
  | f :: fs, .cons v vs =>
    rw [interpretRaw] at h
    split at h
    · simp at h
    · rename_i r c1 a1 hv
      split at h
      · simp at h
      · rename_i r2 c2 a2 hr
        simp at h
        obtain ⟨h1, h2⟩ := h
        subst h1
        subst h2
        exact InterpStep.consLit f ((interpretValue_step v acc c1 a1 hv).seq
          (interpretRaw_step fs vs a1 c2 a2 hr))

/-- Interpreting a list token's members is an interpretation step. -/
theorem interpretMembers_step (members : ValueList) (glue : String) (first : Bool)
    (acc : List ValueExpression) (chunks : List SqlChunk) (acc' : List ValueExpression)
    (h : interpretMembers members glue first acc = .ok (chunks, acc')) :
    InterpStep acc chunks acc' := by
  match members with
  | .nil =>
    rw [interpretMembers] at h
    simp at h
    obtain ⟨h1, h2⟩ := h
    subst h1
    subst h2
    exact InterpStep.litOnly rfl
  | .cons m ms =>
    rw [interpretMembers] at h
    split at h
    · simp at h
    · rename_i r c1 a1 hv
      split at h
      · simp at h
      · rename_i r2 c2 a2 hr
        split at h
        · simp at h
          obtain ⟨h1, h2⟩ := h
          subst h1
          subst h2
          exact (interpretValue_step m acc c1 a1 hv).seq
            (interpretMembers_step ms glue false a1 c2 a2 hr)
        · simp at h
          obtain ⟨h1, h2⟩ := h
          subst h1
          subst h2
          exact InterpStep.consLit glue ((interpretValue_step m acc c1 a1 hv).seq
            (interpretMembers_step ms glue false a1 c2 a2 hr))

end

/-! ## Decimal digit rendering and the placeholder scanner -/

/-- The rendered digit of `d < 10` is a decimal digit character. -/
theorem digitChar_isDigit (d : Nat) (hd : d < 10) : (digitChar d).isDigit = true := by
  interval_cases d <;> decide

/-- Reading back the rendered digit of `d < 10` gives `d`. -/
theorem digitVal_digitChar (d : Nat) (hd : d < 10) : digitVal (digitChar d) = d := by
  interval_cases d <;> decide

/-- The digit accumulator only appends to its accumulator argument. -/
theorem natDigitsCore_append :
    ∀ (fuel n : Nat) (acc : List Char),
      natDigitsCore fuel n acc = natDigitsCore fuel n [] ++ acc := by
  intro fuel
  induction fuel with
  | zero => intro n acc; rfl
  | succ f ih =>
    intro n acc
    by_cases h : n < 10
    · simp [natDigitsCore, h]
    · rw [natDigitsCore, if_neg h, natDigitsCore, if_neg h,
        ih (n / 10) (digitChar (n % 10) :: acc), ih (n / 10) [digitChar (n % 10)],
        List.append_assoc]
      rfl

/-- The digit accumulator does not depend on the fuel once it suffices. -/
theorem natDigitsCore_congr :
    ∀ (f1 f2 n : Nat) (acc : List Char), n < f1 → n < f2 →
      natDigitsCore f1 n acc = natDigitsCore f2 n acc := by
  intro f1
  induction f1 with
  | zero => intro f2 n acc h1 _; omega
  | succ f ih =>
    intro f2 n acc h1 h2
    cases f2 with
    | zero => omega
    | succ g =>
      by_cases h : n < 10
      · simp [natDigitsCore, h]
      · rw [natDigitsCore, if_neg h, natDigitsCore, if_neg h]
        have hn : 0 < n := by omega
        have hdiv : n / 10 < n := Nat.div_lt_self hn (by omega)
        exact ih g (n / 10) _ (by omega) (by omega)

/-- One-digit rendering. -/
theorem natDigits_small (n : Nat) (h : n < 10) : natDigits n = [digitChar n] := by
  simp [natDigits, natDigitsCore, h]

/-- Multi-digit rendering splits off the least significant digit. -/
theorem natDigits_split (n : Nat) (h : 10 ≤ n) :
    natDigits n = natDigits (n / 10) ++ [digitChar (n % 10)] := by
  have hn : 0 < n := by omega
  have hdiv : n / 10 < n := Nat.div_lt_self hn (by omega)
  rw [natDigits, natDigitsCore, if_neg (by omega),
    natDigitsCore_append n (n / 10) [digitChar (n % 10)],
    natDigitsCore_congr n (n / 10 + 1) (n / 10) [] (by omega) (by omega)]
  rfl

/-- A number renders to at least one digit. -/
theorem natDigits_ne_nil (n : Nat) : natDigits n ≠ [] := by
  by_cases h : n < 10
  · rw [natDigits_small n h]
    simp
  · rw [natDigits_split n (by omega)]
    simp

/-- Every rendered character is a decimal digit. -/
theorem natDigits_all_digit (n : Nat) : ∀ c ∈ natDigits n, c.isDigit = true := by
  induction n using Nat.strong_induction_on with
  | _ n ih =>
    by_cases h : n < 10
    · rw [natDigits_small n h]
      intro c hc
      rw [List.mem_singleton] at hc
      subst hc
      exact digitChar_isDigit n h
    · rw [natDigits_split n (by omega)]
      intro c hc
      rw [List.mem_append] at hc
      rcases hc with hc | hc
      · have hn : 0 < n := by omega
        exact ih (n / 10) (Nat.div_lt_self hn (by omega)) c hc
      · rw [List.mem_singleton] at hc
        subst hc
        exact digitChar_isDigit (n % 10) (Nat.mod_lt n (by omega))

/-- Reading the rendered digits of `n` back gives `n`. -/
theorem foldDigitsValue_natDigits (n : Nat) :
    foldDigitsValue 0 (natDigits n) = n := by
  induction n using Nat.strong_induction_on with
  | _ n ih =>
    by_cases h : n < 10
    · rw [natDigits_small n h]
      show pushDigit 0 (digitChar n) = n
      rw [pushDigit, digitVal_digitChar n h]
      omega
    · have hn : 0 < n := by omega
      have hdiv : n / 10 < n := Nat.div_lt_self hn (by omega)
      rw [natDigits_split n (by omega), foldDigitsValue, List.foldl_append]
      show pushDigit (foldDigitsValue 0 (natDigits (n / 10))) (digitChar (n % 10)) = n
      rw [ih (n / 10) hdiv, pushDigit, digitVal_digitChar (n % 10) (Nat.mod_lt n (by omega))]
      omega

/-- The idle scanner skips characters that are not `$`. -/
theorem extractIdle_append_noDollar :
    ∀ (l m : List Char), noDollarChars l = true →
      extractIdle (l ++ m) = extractIdle m := by
  intro l
  induction l with
  | nil => intro m _; rfl
  | cons c l ih =>
    intro m h
    rw [noDollarChars, List.all_cons, Bool.and_eq_true] at h
    have hc : (c = '$') = False := by
      simpa using h.1
    rw [List.cons_append, extractIdle, if_neg (by simp [hc])]
    exact ih m h.2

/-- The reading scanner consumes a digit run, accumulating its value. -/
theorem extractReading_append_digits :
    ∀ (ds : List Char) (v : Nat) (m : List Char), (∀ c ∈ ds, c.isDigit = true) →
      extractReading v (ds ++ m) = extractReading (foldDigitsValue v ds) m := by
  intro ds
  induction ds with
  | nil => intro v m _; rfl
  | cons d ds ih =>
    intro v m h
    have hd : d.isDigit = true := h d (List.mem_cons_self d ds)
    rw [List.cons_append, extractReading, if_pos hd]
    rw [ih (pushDigit v d) m (fun c hc => h c (List.mem_cons_of_mem d hc))]
    rfl

/-- When the rest does not start with a digit, the reading scanner emits the
number it has read and continues idle. -/
theorem extractReading_boundary (v : Nat) (m : List Char)
    (h : headNotDigit m = true) : extractReading v m = v :: extractIdle m := by
  cases m with
  | nil => rfl
  | cons c rest =>
    rw [headNotDigit, Bool.not_eq_true'] at h
    by_cases hc : c = '$' <;>
      simp [extractReading, extractIdle, h, hc]

/-- Rendered chunks never start with a digit. -/
theorem renderChars_headNotDigit :
    ∀ chunks : List SqlChunk, chunks.all goodChunk = true →
      headNotDigit (renderChars chunks) = true := by
  intro chunks
  induction chunks with
  | nil => intro _; rfl
  | cons c rest ih =>
    intro h
    rw [List.all_cons, Bool.and_eq_true] at h
    cases c with
    | lit s =>
      rw [renderChars]
      simp only [renderChunk]
      have hs := h.1
      rw [goodChunk, litStrOk, Bool.and_eq_true] at hs
      cases hdata : s.data with
      | nil => simpa [hdata] using ih h.2
      | cons c0 cs =>
        have := hs.2
        rw [hdata] at this
        simpa [hdata, headNotDigit] using this
    | placeholder k =>
      rw [renderChars]
      simp [renderChunk, headNotDigit]

/-- An empty rendering means there was no placeholder chunk. -/
theorem renderChars_nil_no_placeholder :
    ∀ chunks : List SqlChunk, renderChars chunks = [] →
      placeholderIndices chunks = [] := by
  intro chunks
  induction chunks with
  | nil => intro _; rfl
  | cons c rest ih =>
    intro h
    cases c with
    | lit s =>
      rw [renderChars, List.append_eq_nil] at h
      rw [placeholderIndices]
      exact ih h.2
    | placeholder k =>
      rw [renderChars] at h
      simp [renderChunk] at h

/-- Scanning the rendered SQL text of safe chunks recovers exactly the
placeholder chunks, in order. -/
theorem extractIdle_renderChars :
    ∀ chunks : List SqlChunk, chunks.all goodChunk = true →
      extractIdle (renderChars chunks) = placeholderIndices chunks := by
  intro chunks
  induction chunks with
  | nil => intro _; rfl
  | cons c rest ih =>
    intro h
    rw [List.all_cons, Bool.and_eq_true] at h
    cases c with
    | lit s =>
      rw [renderChars, placeholderIndices]
      simp only [renderChunk]
      have hs := h.1
      rw [goodChunk, litStrOk, Bool.and_eq_true] at hs
      rw [extractIdle_append_noDollar s.data (renderChars rest) hs.1]
      exact ih h.2
    | placeholder k =>
      rw [renderChars, placeholderIndices]
      have hone : (renderChunk (SqlChunk.placeholder k)).data = '$' :: natDigits k := rfl
      rw [hone]
      cases hnd : natDigits k with
      | nil => exact absurd hnd (natDigits_ne_nil k)
      | cons d ds =>
        have hd : d.isDigit = true := by
          apply natDigits_all_digit k
          rw [hnd]
          exact List.mem_cons_self d ds
        have hds : ∀ c ∈ ds, c.isDigit = true := by
          intro c hc
          apply natDigits_all_digit k
          rw [hnd]
          exact List.mem_cons_of_mem d hc
        rw [List.cons_append, extractIdle, if_pos rfl, List.cons_append, extractDollar,
          if_pos hd, extractReading_append_digits ds (digitVal d) (renderChars rest) hds]
        have hval : foldDigitsValue (digitVal d) ds = k := by
          have := foldDigitsValue_natDigits k
          rw [hnd] at this
          show List.foldl pushDigit (digitVal d) ds = k
          have h0 : pushDigit 0 d = digitVal d := by
            rw [pushDigit]
            omega
          rw [foldDigitsValue, List.foldl_cons, h0] at this
          exact this
        rw [hval,
          extractReading_boundary k (renderChars rest) (renderChars_headNotDigit rest h.2),
          ih h.2]

/-! ## Goodness of the literal text the interpreter emits -/

/-- Folding string concatenation concatenates the character lists. -/
theorem data_foldl_append :
    ∀ (l : List String) (a : String),
      (l.foldl (fun r s => r ++ s) a).data = a.data ++ (l.map String.data).flatten := by
  intro l
  induction l with
  | nil => intro a; simp
  | cons s l ih =>
    intro a
    rw [List.foldl_cons, ih (a ++ s)]
    simp

/-- The characters of a joined string list. -/
theorem data_join (l : List String) :
    (String.join l).data = (l.map String.data).flatten := by
  rw [String.join, data_foldl_append]
  rfl

/-- The characters of the intercalation worker. -/
theorem data_intercalate_go :
    ∀ (as : List String) (acc s : String),
      (String.intercalate.go acc s as).data =
        acc.data ++ (as.map (fun a => s.data ++ a.data)).flatten := by
  intro as
  induction as with
  | nil => intro acc s; simp [String.intercalate.go]
  | cons a as ih =>
    intro acc s
    rw [String.intercalate.go, ih (acc ++ s ++ a) s]
    simp

/-- The characters of an intercalated nonempty string list. -/
theorem data_intercalate_cons (s a : String) (as : List String) :
    (String.intercalate s (a :: as)).data =
      a.data ++ (as.map (fun x => s.data ++ x.data)).flatten := by
  rw [String.intercalate, data_intercalate_go as a s]

/-- Dollar-freeness distributes over concatenation. -/
theorem noDollarChars_append (a b : List Char) :
    noDollarChars (a ++ b) = (noDollarChars a && noDollarChars b) := by
  simp [noDollarChars]

/-- A join of dollar-free character lists is dollar-free. -/
theorem noDollarChars_join :
    ∀ ls : List (List Char), (∀ l ∈ ls, noDollarChars l = true) →
      noDollarChars ls.flatten = true := by
  intro ls
  induction ls with
  | nil => intro _; rfl
  | cons l ls ih =>
    intro h
    rw [List.flatten_cons, noDollarChars_append, Bool.and_eq_true]
    exact ⟨h l (List.mem_cons_self l ls), ih (fun x hx => h x (List.mem_cons_of_mem l hx))⟩

/-- A join of character lists none of which starts with a digit does not
start with a digit. -/
theorem headNotDigit_join :
    ∀ ls : List (List Char), (∀ l ∈ ls, headNotDigit l = true) →
      headNotDigit ls.flatten = true := by
  intro ls
  induction ls with
  | nil => intro _; rfl
  | cons l ls ih =>
    intro h
    cases l with
    | nil => simpa using ih (fun x hx => h x (List.mem_cons_of_mem [] hx))
    | cons c cs => simpa [headNotDigit] using h (c :: cs) (List.mem_cons_self _ ls)

/-- Joining safe literal strings gives a safe literal string. -/
theorem litStrOk_join (fs : List String) (h : fs.all litStrOk = true) :
    litStrOk (String.join fs) = true := by
  rw [List.all_eq_true] at h
  rw [litStrOk, Bool.and_eq_true, noDollarStr, data_join]
  constructor
  · apply noDollarChars_join
    intro l hl
    rw [List.mem_map] at hl
    obtain ⟨x, hx, rfl⟩ := hl
    have := h x hx
    rw [litStrOk, Bool.and_eq_true] at this
    exact this.1
  · apply headNotDigit_join
    intro l hl
    rw [List.mem_map] at hl
    obtain ⟨x, hx, rfl⟩ := hl
    have := h x hx
    rw [litStrOk, Bool.and_eq_true] at this
    exact this.2

/-- The doubled form of a non-dollar character is dollar-free. -/
theorem noDollarChars_doubleQuoteChar (c : Char) (hc : (c = '$') = False) :
    noDollarChars (doubleQuoteChar c).data = true := by
  rw [doubleQuoteChar]
  by_cases h : c = '"'
  · rw [if_pos h]
    decide
  · rw [if_neg h]
    simp [noDollarChars, hc]

/-- A quoted identifier part of a dollar-free name is dollar-free. -/
theorem noDollarChars_quoteIdentifierPart (s : String) (hs : noDollarStr s = true) :
    noDollarChars (quoteIdentifierPart s).data = true := by
  rw [quoteIdentifierPart]
  rw [String.data_append, String.data_append, noDollarChars_append,
    noDollarChars_append, Bool.and_eq_true, Bool.and_eq_true]
  refine ⟨⟨by decide, ?_⟩, by decide⟩
  rw [data_join]
  apply noDollarChars_join
  intro l hl
  rw [List.map_map, List.mem_map] at hl
  obtain ⟨c, hc, rfl⟩ := hl
  apply noDollarChars_doubleQuoteChar
  rw [noDollarStr, noDollarChars, List.all_eq_true] at hs
  simpa using hs c hc

/-- The rendering of a dollar-free identifier list is a safe literal. -/
theorem litStrOk_renderIdentifier (names : List String)
    (h : names.all noDollarStr = true) : litStrOk (renderIdentifier names) = true := by
  cases names with
  | nil => decide
  | cons a as =>
    rw [List.all_cons, Bool.and_eq_true] at h
    rw [renderIdentifier, List.map_cons, litStrOk, Bool.and_eq_true, noDollarStr,
      data_intercalate_cons]
    constructor
    · rw [noDollarChars_append, Bool.and_eq_true]
      refine ⟨noDollarChars_quoteIdentifierPart a h.1, ?_⟩
      apply noDollarChars_join
      intro l hl
      rw [List.map_map, List.mem_map] at hl
      obtain ⟨x, hx, rfl⟩ := hl
      show noDollarChars (".".data ++ (quoteIdentifierPart x).data) = true
      rw [noDollarChars_append, Bool.and_eq_true]
      refine ⟨by decide, noDollarChars_quoteIdentifierPart x ?_⟩
      rw [List.all_eq_true] at h
      exact h.2 x hx
    · rw [quoteIdentifierPart, String.data_append, String.data_append]
      rfl

/-- A type-cast literal `::T[]` over a dollar-free type specifier is a safe
literal. -/
theorem litStrOk_typeCast (ct : TypeSpecifier) (h : typeSpecifierOk ct = true) :
    litStrOk ("::" ++ renderTypeSpecifier ct ++ "[]") = true := by
  have hnd : noDollarStr (renderTypeSpecifier ct) = true := by
    cases ct with
    | typeName name => exact h
    | sqlFragment sql => exact h
  rw [litStrOk, Bool.and_eq_true, noDollarStr, String.data_append, String.data_append]
  constructor
  · rw [noDollarChars_append, noDollarChars_append, Bool.and_eq_true, Bool.and_eq_true]
    exact ⟨⟨by decide, hnd⟩, by decide⟩
  · rfl

/-- The chunks inside `unnest(...)` are safe. -/
theorem goodChunk_unnestColumnChunks (base : Nat) :
    ∀ (cts : List TypeSpecifier) (j : Nat), cts.all typeSpecifierOk = true →
      (unnestColumnChunks base cts j).all goodChunk = true := by
  intro cts
  induction cts with
  | nil => intro j _; rfl
  | cons ct rest ih =>
    intro j h
    rw [List.all_cons, Bool.and_eq_true] at h
    rw [unnestColumnChunks, List.all_append, List.all_append, Bool.and_eq_true,
      Bool.and_eq_true]
    refine ⟨⟨?_, ?_⟩, ih (j + 1) h.2⟩
    · by_cases h0 : j = 0
      · rw [if_pos h0]
        rfl
      · rw [if_neg h0]
        decide
    · simp only [List.all_cons, List.all_nil, Bool.and_true, Bool.and_eq_true, goodChunk]
      refine ⟨?_, litStrOk_typeCast ct h.1⟩
      trivial

mutual

/-- Interpreting a safe value expression emits only safe chunks. -/
theorem interpretValue_good (v : ValueExpression) (acc : List ValueExpression)
    (chunks : List SqlChunk) (acc' : List ValueExpression)
    (h : interpretValue v acc = .ok (chunks, acc'))
    (hok : valueExpressionOk v = true) : chunks.all goodChunk = true := by
  cases v with
  | primitive p =>
    rw [interpretValue] at h
    split at h
    · simp at h
      obtain ⟨h1, h2⟩ := h
      subst h1
      rfl
    · simp at h
  | token t => exact interpretToken_good t acc chunks acc' h hok

/-- Interpreting a safe token emits only safe chunks. -/
theorem interpretToken_good (t : SqlTokenTree) (acc : List ValueExpression)
    (chunks : List SqlChunk) (acc' : List ValueExpression)
    (h : interpretToken t acc = .ok (chunks, acc'))
    (hok : sqlTokenTreeOk t = true) : chunks.all goodChunk = true := by
  cases t with
  | raw fragments values =>
    rw [sqlTokenTreeOk, Bool.and_eq_true] at hok
    exact interpretRaw_good fragments values acc chunks acc' h hok.1 hok.2
  | identifier names =>
    rw [interpretToken] at h
    simp at h
    obtain ⟨h1, h2⟩ := h
    subst h1
    simp only [List.all_cons, List.all_nil, Bool.and_true, goodChunk]
    exact litStrOk_renderIdentifier names hok
  | arrayToken values memberType =>
    rw [interpretToken] at h
    split at h
    · simp at h
      obtain ⟨h1, h2⟩ := h
      subst h1
      simp only [List.all_cons, List.all_nil, Bool.and_true, Bool.and_eq_true, goodChunk]
      refine ⟨?_, litStrOk_typeCast memberType hok⟩
      trivial
    · simp at h
  | binaryToken data =>
    rw [interpretToken] at h
    simp at h
    obtain ⟨h1, h2⟩ := h
    subst h1
    simp only [List.all_cons, List.all_nil, goodChunk, Bool.and_true, Bool.true_and]
    decide
  | jsonToken value =>
    rw [interpretToken] at h
    simp at h
    obtain ⟨h1, h2⟩ := h
    subst h1
    simp only [List.all_cons, List.all_nil, goodChunk, Bool.and_true, Bool.true_and]
    decide
  | jsonBinaryToken value =>
    rw [interpretToken] at h
    simp at h
    obtain ⟨h1, h2⟩ := h
    subst h1
    simp only [List.all_cons, List.all_nil, goodChunk, Bool.and_true, Bool.true_and]
    decide
  | listToken members glue =>
    rw [sqlTokenTreeOk, Bool.and_eq_true] at hok
    exact interpretMembers_good members glue true acc chunks acc' h hok.1 hok.2
  | unnestToken tuples columnTypes =>
    rw [interpretToken] at h
    split at h
    · split at h
      · simp at h
        obtain ⟨h1, h2⟩ := h
        subst h1
        rw [List.all_cons, Bool.and_eq_true, List.all_append]
        refine ⟨by decide, ?_⟩
        rw [Bool.and_eq_true]
        exact ⟨goodChunk_unnestColumnChunks acc.length columnTypes 0 hok, by decide⟩
      · simp at h
    · simp at h

/-- Interpreting safe fragments and values emits only safe chunks. -/
theorem interpretRaw_good (fragments : List String) (values : ValueList)
    (acc : List ValueExpression) (chunks : List SqlChunk) (acc' : List ValueExpression)
    (h : interpretRaw fragments values acc = .ok (chunks, acc'))
    (hfr : fragments.all litStrOk = true) (hvs : valueListOk values = true) :
    chunks.all goodChunk = true := by
  match fragments, values with
  | fs, .nil =>
    rw [interpretRaw] at h
    simp at h
    obtain ⟨h1, h2⟩ := h
    subst h1
    simp only [List.all_cons, List.all_nil, Bool.and_true, goodChunk]
    exact litStrOk_join fs hfr
  | [], .cons v vs =>
    rw [valueListOk, Bool.and_eq_true] at hvs
    rw [interpretRaw] at h
    split at h
    · simp at h
    · rename_i r c1 a1 hv
      split at h
      · simp at h
      · rename_i r2 c2 a2 hr
        simp at h
        obtain ⟨h1, h2⟩ := h
        subst h1
        rw [List.all_append, Bool.and_eq_true]
        exact ⟨interpretValue_good v acc c1 a1 hv hvs.1,
          interpretRaw_good [] vs a1 c2 a2 hr rfl hvs.2⟩
  | f :: fs, .cons v vs =>
    rw [valueListOk, Bool.and_eq_true] at hvs
    rw [List.all_cons, Bool.and_eq_true] at hfr
    rw [interpretRaw] at h
    split at h
    · simp at h
    · rename_i r c1 a1 hv
      split at h
      · simp at h
      · rename_i r2 c2 a2 hr
        simp at h
        obtain ⟨h1, h2⟩ := h
        subst h1
        rw [List.all_cons, Bool.and_eq_true, List.all_append, Bool.and_eq_true]
        exact ⟨hfr.1, interpretValue_good v acc c1 a1 hv hvs.1,
          interpretRaw_good fs vs a1 c2 a2 hr hfr.2 hvs.2⟩

/-- Interpreting safe members with safe glue emits only safe chunks. -/
theorem interpretMembers_good (members : ValueList) (glue : String) (first : Bool)
    (acc : List ValueExpression) (chunks : List SqlChunk) (acc' : List ValueExpression)
    (h : interpretMembers members glue first acc = .ok (chunks, acc'))
    (hglue : litStrOk glue = true) (hms : valueListOk members = true) :
    chunks.all goodChunk = true := by
  match members with
  | .nil =>
    rw [interpretMembers] at h
    simp at h
    obtain ⟨h1, h2⟩ := h
    subst h1
    rfl
  | .cons m ms =>
    rw [valueListOk, Bool.and_eq_true] at hms
    rw [interpretMembers] at h
    split at h
    · simp at h
    · rename_i r c1 a1 hv
      split at h
      · simp at h
      · rename_i r2 c2 a2 hr
        split at h
        · simp at h
          obtain ⟨h1, h2⟩ := h
          subst h1
          rw [List.all_append, Bool.and_eq_true]
          exact ⟨interpretValue_good m acc c1 a1 hv hms.1,
            interpretMembers_good ms glue false a1 c2 a2 hr hglue hms.2⟩
        · simp at h
          obtain ⟨h1, h2⟩ := h
          subst h1
          rw [List.all_cons, Bool.and_eq_true, List.all_append, Bool.and_eq_true]
          exact ⟨hglue, interpretValue_good m acc c1 a1 hv hms.1,
            interpretMembers_good ms glue false a1 c2 a2 hr hglue hms.2⟩

end

/-- The characters of the rendered SQL string are the rendered chunks'
characters. -/
theorem data_renderSql (chunks : List SqlChunk) :
    (renderSql chunks).data = renderChars chunks := by
  rw [renderSql, data_join]
  induction chunks with
  | nil => rfl
  | cons c rest ih =>
    simp only [List.map_cons, List.flatten_cons, renderChars, ih]

/-- For safe chunks, scanning the rendered SQL string finds exactly the
placeholder chunks. -/
theorem extractPlaceholders_renderSql (chunks : List SqlChunk)
    (h : chunks.all goodChunk = true) :
    extractPlaceholders (renderSql chunks) = placeholderIndices chunks := by
  rw [extractPlaceholders, data_renderSql]
  exact extractIdle_renderChars chunks h

/-- An accepted token tree with safe literal text produces safe output
chunks. -/
theorem interpret_ok_good (t : SqlTokenTree) (q : InterpretedQuery)
    (h : interpret t = .ok q) (hok : sqlTokenTreeOk t = true) :
    q.sqlChunks.all goodChunk = true := by
  rw [interpret] at h
  cases htop : interpretToken t [] with
  | error e => rw [htop] at h; simp at h
  | ok r =>
    obtain ⟨chunks, vals⟩ := r
    rw [htop] at h
    simp at h
    subst h
    exact interpretToken_good t [] chunks vals htop hok

/-- Scanning the concrete S1 output string finds placeholders 1 and 2. -/
theorem extract_scenario_select :
    extractPlaceholders "SELECT $1, $2, \"u\".\"id\"" = [1, 2] := by
  rfl

/-- A flat finite value is in particular a primitive value. -/
theorem isPrimitiveValue_of_isFlatFiniteValue (v : ValueExpression)
    (h : isFlatFiniteValue v = true) : isPrimitiveValue v = true := by
  cases v with
  | primitive p => rfl
  | token t => simp [isFlatFiniteValue] at h

/-- Top-level interpretation invariant: on success, the placeholders of the
output are exactly `1 .. values.length` and every output value is a flat
finite primitive. -/
theorem interpret_ok_invariant (t : SqlTokenTree) (q : InterpretedQuery)
    (h : interpret t = .ok q) :
    (∀ k, k ∈ placeholderIndices q.sqlChunks ↔ (1 ≤ k ∧ k ≤ q.values.length)) ∧
    q.values.all isFlatFiniteValue = true := by
  rw [interpret] at h
  cases htop : interpretToken t [] with
  | error e => rw [htop] at h; simp at h
  | ok r =>
    obtain ⟨chunks, vals⟩ := r
    rw [htop] at h
    simp at h
    subst h
    have hstep := interpretToken_step t [] chunks vals htop
    obtain ⟨⟨delta, hdelta, hfin⟩, hp⟩ := hstep
    simp at hdelta
    subst hdelta
    constructor
    · intro k
      simpa using hp k
    · simpa using hfin

/-- C2: for every token tree the interpreter accepts, every placeholder chunk
of the output SQL has an index `k` between 1 and `values.length`, each index
in that range occurs at least once, and no element of the output value list
is a token — every element is a primitive value.  Moreover, whenever the
tree's own literal text is safe to splice (`sqlTokenTreeOk`: no `$` and no
leading digit in user-supplied fragments, glue, identifier names or type
names), the same holds of the `$k` placeholders scanned from the rendered
output SQL *string*. -/
theorem interpret_placeholders_wellformed_and_values_flat (t : SqlTokenTree)
    (q : InterpretedQuery) (h : interpret t = .ok q) :
    (∀ k, k ∈ placeholderIndices q.sqlChunks ↔ (1 ≤ k ∧ k ≤ q.values.length)) ∧
    q.values.all isPrimitiveValue = true ∧
    (sqlTokenTreeOk t = true →
      ∀ k, k ∈ extractPlaceholders (renderSql q.sqlChunks) ↔
        (1 ≤ k ∧ k ≤ q.values.length)) := by
  obtain ⟨hp, hfin⟩ := interpret_ok_invariant t q h
  refine ⟨hp, ?_, ?_⟩
  · rw [List.all_eq_true] at hfin ⊢
    intro x hx
    exact isPrimitiveValue_of_isFlatFiniteValue x (hfin x hx)
  · intro hok k
    rw [extractPlaceholders_renderSql q.sqlChunks (interpret_ok_good t q h hok)]
    exact hp k

/-- Witness for C2 at the concrete scenario-S1 token, with both hypotheses
(the accepted interpretation and the literal-text safety) discharged. -/
theorem interpret_placeholders_wellformed_witness :
    interpret sampleSelectToken = .ok sampleSelectInterpreted ∧
    sqlTokenTreeOk sampleSelectToken = true ∧
    (∀ k, k ∈ placeholderIndices sampleSelectInterpreted.sqlChunks ↔
      (1 ≤ k ∧ k ≤ sampleSelectInterpreted.values.length)) ∧
    sampleSelectInterpreted.values.all isPrimitiveValue = true ∧
    (∀ k, k ∈ extractPlaceholders (renderSql sampleSelectInterpreted.sqlChunks) ↔
      (1 ≤ k ∧ k ≤ sampleSelectInterpreted.values.length)) := by
  have h := interpret_placeholders_wellformed_and_values_flat sampleSelectToken
    sampleSelectInterpreted rfl
  exact ⟨rfl, rfl, h.1, h.2.1, h.2.2 rfl⟩

/-- A raw token whose values are primitives one of which contains a
non-finite number is rejected with `InvalidInputError`. -/
theorem interpretRaw_nonfinite_rejected (ps : List PrimitiveValueExpression) :
    ∀ (fragments : List String) (acc : List ValueExpression),
      isFinitePrimList ps = false →
      interpretRaw fragments (primValueList ps) acc = .error .invalidInput := by
  induction ps with
  | nil => intro fragments acc h; simp [isFinitePrimList] at h
  | cons p ps ih =>
    intro fragments acc h
    rw [isFinitePrimList] at h
    cases hp : isFinitePrim p with
    | false =>
      have hval : interpretValue (.primitive p) acc = .error .invalidInput := by
        rw [interpretValue]
        simp [hp]
      cases fragments with
      | nil => rw [primValueList, interpretRaw, hval]
      | cons f fs => rw [primValueList, interpretRaw, hval]
    | true =>
      rw [hp, Bool.true_and] at h
      have hval : interpretValue (.primitive p) acc =
          .ok ([.placeholder (acc.length + 1)], acc ++ [.primitive p]) := by
        rw [interpretValue]
        simp [hp]
      cases fragments with
      | nil =>
        rw [primValueList, interpretRaw]
        simp only [hval]
        rw [ih [] (acc ++ [ValueExpression.primitive p]) h]
      | cons f fs =>
        rw [primValueList, interpretRaw]
        simp only [hval]
        rw [ih fs (acc ++ [ValueExpression.primitive p]) h]

/-- C5: a `PrimitiveValueExpression` is exactly one of boolean, number,
string, byte buffer, null, or a nested array of primitive values — nothing
else inhabits the union — and a non-finite number supplied as a value is
rejected at interpretation time with `InvalidInputError` rather than being
placed in the output value list: interpretation of primitive values
containing one fails with `InvalidInputError`, and every value list the
interpreter does output contains only finite primitives. -/
theorem primitive_values_exhaustive_and_nonfinite_rejected :
    (∀ v : PrimitiveValueExpression,
      (∃ b, v = .boolean b) ∨ (∃ n, v = .number n) ∨ (∃ s, v = .string s) ∨
      (∃ d, v = .buffer d) ∨ v = .null ∨ (∃ items, v = .array items)) ∧
    (∀ (fragments : List String) (ps : List PrimitiveValueExpression)
        (acc : List ValueExpression), isFinitePrimList ps = false →
      interpretRaw fragments (primValueList ps) acc =
        .error SlonikError.invalidInput) ∧
    (∀ (t : SqlTokenTree) (q : InterpretedQuery), interpret t = .ok q →
      q.values.all isFlatFiniteValue = true) := by
  refine ⟨?_, ?_, ?_⟩
  · intro v
    cases v with
    | boolean b => exact .inl ⟨b, rfl⟩
    | number n => exact .inr (.inl ⟨n, rfl⟩)
    | string s => exact .inr (.inr (.inl ⟨s, rfl⟩))
    | buffer d => exact .inr (.inr (.inr (.inl ⟨d, rfl⟩)))
    | null => exact .inr (.inr (.inr (.inr (.inl rfl))))
    | array items => exact .inr (.inr (.inr (.inr (.inr ⟨items, rfl⟩))))
  · intro fragments ps acc h
    exact interpretRaw_nonfinite_rejected ps fragments acc h
  · intro t q h
    exact (interpret_ok_invariant t q h).2

/-- Witness for C5: a lone `NaN` value is rejected with `InvalidInputError`,
and a concrete accepted query's output values are all finite primitives. -/
theorem primitive_values_nonfinite_witness :
    isFinitePrimList [.number .nan] = false ∧
    interpretRaw ["SELECT ", ""] (primValueList [.number .nan]) [] =
      .error SlonikError.invalidInput ∧
    interpret sampleNanToken = .error SlonikError.invalidInput ∧
    interpret sampleLiteralToken = .ok sampleLiteralInterpreted ∧
    sampleLiteralInterpreted.values.all isFlatFiniteValue = true :=
  ⟨rfl,
   primitive_values_exhaustive_and_nonfinite_rejected.2.1
     ["SELECT ", ""] [.number .nan] [] rfl,
   rfl, rfl,
   primitive_values_exhaustive_and_nonfinite_rejected.2.2
     sampleLiteralToken sampleLiteralInterpreted rfl⟩
